import Mathlib

/-!
Verification of the TritonMacroPlace macro-placement interface
(`src/TritonMacroPlace/include/mpl/MacroPlacer.h`).

The repository exposes only the header: class and function declarations plus a
few inline member bodies.  Definitions below that embed inline code from the
header carry their source names; definitions whose bodies are not part of the
available source are modelled from the design document (spec.md) and say so in
their doc comments.  Doubles are modelled as rationals (no floating-point
rounding is relevant to any claim), pointers as natural-number identifiers.
-/

namespace Mpl

/-- The four chip-boundary edges, in the declaration order of the header
(`enum class CoreEdge { West, East, North, South }`). -/
inductive CoreEdge where
  | West
  | East
  | North
  | South
  deriving DecidableEq, Repr

/-- Header constant: `constexpr int core_edge_count = 4;`. -/
def core_edge_count : Nat := 4

/-- Modelled from the spec: `coreEdgeFromIndex` (declared in the header, body
not in the available source) maps an integer index to the boundary edge with
that position in declaration order West, East, North, South. -/
def coreEdgeFromIndex (edge_index : Nat) : CoreEdge :=
  match edge_index with
  | 0 => CoreEdge.West
  | 1 => CoreEdge.East
  | 2 => CoreEdge.North
  | _ => CoreEdge.South

/-- Modelled from the spec: `coreEdgeIndex` (declared in the header, body not
in the available source) is the inverse of `coreEdgeFromIndex`, giving each
edge its position in declaration order. -/
def coreEdgeIndex (edge : CoreEdge) : Nat :=
  match edge with
  | CoreEdge.West => 0
  | CoreEdge.East => 1
  | CoreEdge.North => 2
  | CoreEdge.South => 3

/-- Class `MacroLocalInfo`: per-macro halo/channel override record.  The four
`put`/`Get` member bodies are inline in the header and embedded verbatim:
each `put` stores its argument in the matching field, each `Get` reads it. -/
structure MacroLocalInfo where
  haloX_ : ℚ
  haloY_ : ℚ
  channelX_ : ℚ
  channelY_ : ℚ

/-- Header inline: `void putHaloX(double haloX) { haloX_ = haloX; }` -/
def MacroLocalInfo.putHaloX (s : MacroLocalInfo) (haloX : ℚ) : MacroLocalInfo :=
  { s with haloX_ := haloX }

/-- Header inline: `void putHaloY(double haloY) { haloY_ = haloY; }` -/
def MacroLocalInfo.putHaloY (s : MacroLocalInfo) (haloY : ℚ) : MacroLocalInfo :=
  { s with haloY_ := haloY }

/-- Header inline: `void putChannelX(double channelX) { channelX_ = channelX; }` -/
def MacroLocalInfo.putChannelX (s : MacroLocalInfo) (channelX : ℚ) : MacroLocalInfo :=
  { s with channelX_ := channelX }

/-- Header inline: `void putChannelY(double channelY) { channelY_ = channelY; }` -/
def MacroLocalInfo.putChannelY (s : MacroLocalInfo) (channelY : ℚ) : MacroLocalInfo :=
  { s with channelY_ := channelY }

/-- Header inline: `double GetHaloX() { return haloX_; }` -/
def MacroLocalInfo.GetHaloX (s : MacroLocalInfo) : ℚ := s.haloX_

/-- Header inline: `double GetHaloY() { return haloY_; }` -/
def MacroLocalInfo.GetHaloY (s : MacroLocalInfo) : ℚ := s.haloY_

/-- Header inline: `double GetChannelX() { return channelX_; }` -/
def MacroLocalInfo.GetChannelX (s : MacroLocalInfo) : ℚ := s.channelX_

/-- Header inline: `double GetChannelY() { return channelY_; }` -/
def MacroLocalInfo.GetChannelY (s : MacroLocalInfo) : ℚ := s.channelY_

/-- Modelled from the spec: the adjacency map keys "each unordered pair of
macros"; a pair of macro indices is normalized to (smaller, larger). -/
def pairKey (a b : Nat) : Nat × Nat := if a ≤ b then (a, b) else (b, a)

/-- Modelled from the spec: one vertex's contribution inside `findAdjWeights`
(body not in the available source).  For a graph vertex `v` that is an input
pin of macro instance `mac`, every macro `f` in `v`'s fanin set with
`f ≠ mac` adds one to the weight entry of the unordered pair `(f, mac)`;
a vertex that is not a macro input pin contributes nothing. -/
def addPinWeight (inputPinOf : Nat → Option Nat) (vertex_fanins : Nat → Finset Nat)
    (adj_map : Nat × Nat → Nat) (v : Nat) : Nat × Nat → Nat :=
  match inputPinOf v with
  | none => adj_map
  | some mac => fun k =>
      adj_map k + ((vertex_fanins v).filter fun f => f ≠ mac ∧ pairKey f mac = k).card

/-- Modelled from the spec: `findAdjWeights` (declared in the header, body not
in the available source) folds the per-pin contribution over all graph
vertices, starting from an empty weight map. -/
def findAdjWeights (inputPinOf : Nat → Option Nat) (vertex_fanins : Nat → Finset Nat)
    (vertices : List Nat) : Nat × Nat → Nat :=
  vertices.foldl (addPinWeight inputPinOf vertex_fanins) fun _ => 0

/-- Modelled from the spec: the public accessor `weight(int idx11, int idx12)`
reads the matrix filled by `fillMacroWeights` from the adjacency map; with the
unordered-pair keyed map this is a lookup at the normalized key. -/
def weight (adj_map : Nat × Nat → Nat) (idx11 idx12 : Nat) : Nat :=
  adj_map (pairKey idx11 idx12)

/-- Vertex `v` is a driven pin connecting macros `f` and `m`: it is an input pin of
one of the two and has the other in its fanin set. -/
def pinConnects (inputPinOf : Nat → Option Nat) (vertex_fanins : Nat → Finset Nat)
    (f m v : Nat) : Prop :=
  (inputPinOf v = some m ∧ f ∈ vertex_fanins v) ∨
  (inputPinOf v = some f ∧ m ∈ vertex_fanins v)

instance (inputPinOf : Nat → Option Nat) (vertex_fanins : Nat → Finset Nat)
    (f m v : Nat) : Decidable (pinConnects inputPinOf vertex_fanins f m v) := by
  unfold pinConnects
  infer_instance

theorem pairKey_comm (a b : Nat) : pairKey a b = pairKey b a := by
  unfold pairKey
  rcases Nat.lt_trichotomy a b with h | h | h
  · rw [if_pos (Nat.le_of_lt h), if_neg (by omega)]
  · simp [h]
  · rw [if_neg (by omega), if_pos (Nat.le_of_lt h)]

theorem pairKey_eq_iff (a b c d : Nat) :
    pairKey a b = pairKey c d ↔ (a = c ∧ b = d) ∨ (a = d ∧ b = c) := by
  unfold pairKey
  split_ifs <;> simp only [Prod.mk.injEq] <;> omega

/-- Per-vertex contribution to the weight entry at key `k`. -/
def vertexPairCount (inputPinOf : Nat → Option Nat) (vertex_fanins : Nat → Finset Nat)
    (k : Nat × Nat) (v : Nat) : Nat :=
  match inputPinOf v with
  | none => 0
  | some mac => ((vertex_fanins v).filter fun f => f ≠ mac ∧ pairKey f mac = k).card

theorem findAdjWeights_foldl (inputPinOf : Nat → Option Nat)
    (vertex_fanins : Nat → Finset Nat) (vs : List Nat) (m0 : Nat × Nat → Nat)
    (k : Nat × Nat) :
    vs.foldl (addPinWeight inputPinOf vertex_fanins) m0 k =
      m0 k + (vs.map (vertexPairCount inputPinOf vertex_fanins k)).sum := by
  induction vs generalizing m0 with
  | nil => simp
  | cons v vs ih =>
    simp only [List.foldl_cons, List.map_cons, List.sum_cons]
    rw [ih]
    cases hp : inputPinOf v
    · simp [addPinWeight, vertexPairCount, hp]
    · simp [addPinWeight, vertexPairCount, hp, Nat.add_assoc]

theorem vertexPairCount_eq (inputPinOf : Nat → Option Nat)
    (vertex_fanins : Nat → Finset Nat) (f m v : Nat) (hfm : f ≠ m) :
    vertexPairCount inputPinOf vertex_fanins (pairKey f m) v =
      if pinConnects inputPinOf vertex_fanins f m v then 1 else 0 := by
  cases hp : inputPinOf v with
  | none =>
    have hnc : ¬ pinConnects inputPinOf vertex_fanins f m v := by
      simp [pinConnects, hp]
    simp [vertexPairCount, hp, hnc]
  | some mac =>
    by_cases hm : mac = m
    · subst hm
      have hiff : pinConnects inputPinOf vertex_fanins f mac v ↔ f ∈ vertex_fanins v := by
        simp [pinConnects, hp, Ne.symm hfm]
      have hfilter : ((vertex_fanins v).filter fun f2 => f2 ≠ mac ∧ pairKey f2 mac = pairKey f mac)
          = (vertex_fanins v).filter fun f2 => f2 = f :=
        Finset.filter_congr fun x _ => by
          simp only [pairKey_eq_iff, and_true, true_and]
          exact ⟨by omega, by omega⟩
      simp only [vertexPairCount, hp, hfilter, Finset.filter_eq']
      by_cases hf : f ∈ vertex_fanins v <;> simp [hf, hiff]
    · by_cases hf : mac = f
      · subst hf
        have hiff : pinConnects inputPinOf vertex_fanins mac m v ↔ m ∈ vertex_fanins v := by
          simp [pinConnects, hp, hfm]
        have hfilter : ((vertex_fanins v).filter fun f2 => f2 ≠ mac ∧ pairKey f2 mac = pairKey mac m)
            = (vertex_fanins v).filter fun f2 => f2 = m :=
          Finset.filter_congr fun x _ => by
            simp only [pairKey_eq_iff, and_true, true_and]
            exact ⟨by omega, by omega⟩
        simp only [vertexPairCount, hp, hfilter, Finset.filter_eq']
        by_cases hmem : m ∈ vertex_fanins v <;> simp [hmem, hiff]
      · have hnc : ¬ pinConnects inputPinOf vertex_fanins f m v := by
          simp [pinConnects, hp, hm, hf]
        have hfilter : ((vertex_fanins v).filter fun f2 => f2 ≠ mac ∧ pairKey f2 mac = pairKey f m)
            = (vertex_fanins v).filter fun _ => False :=
          Finset.filter_congr fun x _ => by
            simp only [pairKey_eq_iff, iff_false]
            omega
        simp [vertexPairCount, hp, hfilter, hnc]

/-- Weight characterization shared by the adjacency claims: the produced weight
of a pair of distinct macros counts the vertices that connect them. -/
theorem findAdjWeights_count (inputPinOf : Nat → Option Nat)
    (vertex_fanins : Nat → Finset Nat) (vs : List Nat) (f m : Nat) (hfm : f ≠ m) :
    weight (findAdjWeights inputPinOf vertex_fanins vs) f m =
      vs.countP fun v => decide (pinConnects inputPinOf vertex_fanins f m v) := by
  unfold weight findAdjWeights
  rw [findAdjWeights_foldl]
  simp only [Nat.zero_add]
  induction vs with
  | nil => rfl
  | cons v vs ih =>
    simp only [List.map_cons, List.sum_cons, List.countP_cons]
    rw [vertexPairCount_eq inputPinOf vertex_fanins f m v hfm, ih]
    by_cases h : pinConnects inputPinOf vertex_fanins f m v <;>
      simp [h, Nat.add_comm]

/-- C1: adjacency-weight symmetry — over any graph input, after the weight
builder runs, `weight i j = weight j i` for all macro indices, and self pairs
carry no weight. -/
theorem weight_symmetric_no_self (inputPinOf : Nat → Option Nat)
    (vertex_fanins : Nat → Finset Nat) (vs : List Nat) :
    (∀ i j : Nat, weight (findAdjWeights inputPinOf vertex_fanins vs) i j =
      weight (findAdjWeights inputPinOf vertex_fanins vs) j i) ∧
    (∀ i : Nat, weight (findAdjWeights inputPinOf vertex_fanins vs) i i = 0) := by
  constructor
  · intro i j
    unfold weight
    rw [pairKey_comm]
  · intro i
    unfold weight findAdjWeights
    rw [findAdjWeights_foldl]
    simp only [Nat.zero_add]
    apply List.sum_eq_zero
    intro x hx
    simp only [List.mem_map] at hx
    obtain ⟨v, _, rfl⟩ := hx
    cases hp : inputPinOf v with
    | none => simp [vertexPairCount, hp]
    | some mac =>
      have hfilter : ((vertex_fanins v).filter fun f2 => f2 ≠ mac ∧ pairKey f2 mac = pairKey i i)
          = (vertex_fanins v).filter fun _ => False :=
        Finset.filter_congr fun x _ => by
          simp only [pairKey_eq_iff, iff_false]
          omega
      simp [vertexPairCount, hp, hfilter]

/-- C2: per-pin weight accumulation — the final weight of a pair of distinct
macros equals the number of driven pins connecting them: each vertex that is
an input pin of one macro and carries the other in its fanin set counts
exactly once. -/
theorem findAdjWeights_per_pin_count (inputPinOf : Nat → Option Nat)
    (vertex_fanins : Nat → Finset Nat) (vs : List Nat) (f m : Nat) (hfm : f ≠ m) :
    weight (findAdjWeights inputPinOf vertex_fanins vs) f m =
      vs.countP fun v => decide (pinConnects inputPinOf vertex_fanins f m v) :=
  findAdjWeights_count inputPinOf vertex_fanins vs f m hfm

/-- Witness for C2 at a concrete input: one vertex that is an input pin of
macro 1 with macro 2 in its fanin set yields weight 1 for the pair. -/
theorem findAdjWeights_per_pin_count_witness :
    weight (findAdjWeights (fun v => if v = 0 then some 1 else none)
        (fun _ => ({2} : Finset Nat)) [0]) 2 1 =
      List.countP (fun v => decide (pinConnects (fun v => if v = 0 then some 1 else none)
        (fun _ => ({2} : Finset Nat)) 2 1 v)) [0] :=
  findAdjWeights_per_pin_count (fun v => if v = 0 then some 1 else none)
    (fun _ => ({2} : Finset Nat)) [0] 2 1 (by decide)

/-- Modelled from the spec: the connectivity-graph snapshot consumed by the
Fanin Propagator.  `preds` gives the signal-direction predecessors of a vertex
(net and combinational edges only — a register's output has no predecessor
edge, which makes registers propagation barriers); `seed` is the seeding of
primary-input and sequential-output vertices with (at most) the owning macro;
`regPairs` lists each register's (data-input vertex, output vertex) pair. -/
structure FaninGraph where
  numVertices : Nat
  preds : Nat → List Nat
  seed : Nat → Finset Nat
  regPairs : List (Nat × Nat)

/-- Union of the fanin sets of a list of predecessor vertices. -/
def faninUnion (f : Nat → Finset Nat) (ps : List Nat) : Finset Nat :=
  ps.foldr (fun p acc => f p ∪ acc) ∅

/-- One forward relaxation pass: each vertex absorbs the fanin sets of all its
inbound edges. -/
def relaxStep (g : FaninGraph) (f : Nat → Finset Nat) : Nat → Finset Nat :=
  fun v => f v ∪ faninUnion f (g.preds v)

/-- Modelled from the spec: `findFanins` (declared in the header, body not in
the available source) — forward breadth-first propagation of fanin sets; on
the static graph every vertex is finalized within `numVertices` passes. -/
def findFanins (g : FaninGraph) (f : Nat → Finset Nat) : Nat → Finset Nat :=
  (relaxStep g)^[g.numVertices] f

/-- Modelled from the spec: `copyFaninsAcrossRegisters` (declared in the
header, body not in the available source) — for each register, the fanin set
accumulated at its data-input vertex is copied onto its output vertex, so the
register boundary is explicitly bridged instead of swallowing attribution. -/
def copyFaninsAcrossRegisters (g : FaninGraph) (f : Nat → Finset Nat) :
    Nat → Finset Nat :=
  fun v => f v ∪ g.regPairs.foldr
    (fun dq acc => if dq.2 = v then f dq.1 ∪ acc else acc) ∅

/-- Modelled from the spec: `findAdjacencies` orchestration — seed, propagate,
then `depth` rounds of register bridging followed by re-propagation. -/
def findAdjacencies (g : FaninGraph) (depth : Nat) : Nat → Finset Nat :=
  (fun f => findFanins g (copyFaninsAcrossRegisters g f))^[depth]
    (findFanins g g.seed)

/-- Relation `Reaches g k u v`: there is a forward (signal-direction) path of length
`k` from `u` to `v` along predecessor edges. -/
inductive Reaches (g : FaninGraph) : Nat → Nat → Nat → Prop where
  | refl (v : Nat) : Reaches g 0 v v
  | step {k u w v : Nat} : Reaches g k u w → w ∈ g.preds v → Reaches g (k + 1) u v

/-- Relation `SeqReach g n u v`: `v` is reachable forward from `u` crossing exactly `n`
register boundaries, each combinational segment having length at most
`numVertices`. -/
inductive SeqReach (g : FaninGraph) : Nat → Nat → Nat → Prop where
  | comb {u v k : Nat} : Reaches g k u v → k ≤ g.numVertices → SeqReach g 0 u v
  | reg {u d q v n k : Nat} : SeqReach g n u d → (d, q) ∈ g.regPairs →
      Reaches g k q v → k ≤ g.numVertices → SeqReach g (n + 1) u v

theorem relaxStep_le (g : FaninGraph) (f : Nat → Finset Nat) (v : Nat) :
    f v ⊆ relaxStep g f v :=
  Finset.subset_union_left

theorem faninUnion_le_of_mem (f : Nat → Finset Nat) {p : Nat} {ps : List Nat}
    (hp : p ∈ ps) : f p ⊆ faninUnion f ps := by
  induction ps with
  | nil => cases hp
  | cons q ps ih =>
    rcases List.mem_cons.mp hp with rfl | hmem
    · exact Finset.subset_union_left
    · exact (ih hmem).trans Finset.subset_union_right

theorem relaxStep_pred (g : FaninGraph) (f : Nat → Finset Nat) {w v : Nat}
    (hw : w ∈ g.preds v) : f w ⊆ relaxStep g f v :=
  (faninUnion_le_of_mem f hw).trans Finset.subset_union_right

theorem iterate_relax_le (g : FaninGraph) (f : Nat → Finset Nat) (k : Nat)
    (v : Nat) : f v ⊆ (relaxStep g)^[k] f v := by
  induction k with
  | zero => exact Finset.Subset.refl _
  | succ k ih =>
    rw [Function.iterate_succ_apply']
    exact ih.trans (relaxStep_le g _ v)

theorem iterate_relax_reaches (g : FaninGraph) (f : Nat → Finset Nat)
    {k u v : Nat} (hr : Reaches g k u v) :
    ∀ n, k ≤ n → f u ⊆ (relaxStep g)^[n] f v := by
  induction hr with
  | refl w => intro n _; exact iterate_relax_le g f n w
  | @step k u w v hr hw ih =>
    intro n hkn
    cases n with
    | zero => omega
    | succ n =>
      rw [Function.iterate_succ_apply']
      exact (ih n (by omega)).trans (relaxStep_pred g _ hw)

theorem findFanins_reaches (g : FaninGraph) (f : Nat → Finset Nat)
    {k u v : Nat} (hr : Reaches g k u v) (hk : k ≤ g.numVertices) :
    f u ⊆ findFanins g f v :=
  iterate_relax_reaches g f hr g.numVertices hk

theorem findFanins_le (g : FaninGraph) (f : Nat → Finset Nat) (v : Nat) :
    f v ⊆ findFanins g f v :=
  iterate_relax_le g f g.numVertices v

theorem copyFanins_le (g : FaninGraph) (f : Nat → Finset Nat) (v : Nat) :
    f v ⊆ copyFaninsAcrossRegisters g f v :=
  Finset.subset_union_left

theorem regFold_mem (f : Nat → Finset Nat) {d q : Nat} (rps : List (Nat × Nat))
    (hdq : (d, q) ∈ rps) :
    f d ⊆ rps.foldr (fun dq acc => if dq.2 = q then f dq.1 ∪ acc else acc) ∅ := by
  induction rps with
  | nil => cases hdq
  | cons dq rest ih =>
    rcases List.mem_cons.mp hdq with rfl | hmem
    · simp only [List.foldr_cons, if_pos rfl]
      exact Finset.subset_union_left
    · simp only [List.foldr_cons]
      by_cases hq : dq.2 = q
      · rw [if_pos hq]
        exact (ih hmem).trans Finset.subset_union_right
      · rw [if_neg hq]
        exact ih hmem

theorem copyFanins_reg (g : FaninGraph) (f : Nat → Finset Nat) {d q : Nat}
    (hdq : (d, q) ∈ g.regPairs) :
    f d ⊆ copyFaninsAcrossRegisters g f q :=
  (regFold_mem f g.regPairs hdq).trans Finset.subset_union_right

theorem findAdjacencies_round_le (g : FaninGraph) (f : Nat → Finset Nat)
    (v : Nat) :
    f v ⊆ findFanins g (copyFaninsAcrossRegisters g f) v :=
  (copyFanins_le g f v).trans (findFanins_le g _ v)

theorem findAdjacencies_iterate_le (g : FaninGraph) (f : Nat → Finset Nat)
    (k : Nat) (v : Nat) :
    f v ⊆ (fun f => findFanins g (copyFaninsAcrossRegisters g f))^[k] f v := by
  induction k with
  | zero => exact Finset.Subset.refl _
  | succ k ih =>
    rw [Function.iterate_succ_apply']
    exact ih.trans (findAdjacencies_round_le g _ v)

/-- A macro seeded at `s` reaches the fanin set of every vertex that `s`
reaches across at most `depth` register boundaries. -/
theorem seqReach_fanin (g : FaninGraph) {n s t : Nat}
    (hsr : SeqReach g n s t) :
    ∀ depth, n ≤ depth → g.seed s ⊆ findAdjacencies g depth t := by
  induction hsr with
  | @comb u v k hr hk =>
    intro depth _
    unfold findAdjacencies
    exact (findFanins_reaches g g.seed hr hk).trans
      (findAdjacencies_iterate_le g _ depth v)
  | @reg u d q v n k hsr hdq hr hk ih =>
    intro depth hdepth
    cases depth with
    | zero => omega
    | succ depth =>
      unfold findAdjacencies
      rw [Function.iterate_succ_apply']
      refine Finset.Subset.trans (ih depth (by omega)) ?_
      refine Finset.Subset.trans (copyFanins_reg g _ hdq) ?_
      exact findFanins_reaches g _ hr hk

/-- C3: register-barrier bridging — if macro `A`'s seeded output vertex
reaches an input pin of macro `B` through `n ≥ 1` register stages (or any
number up to the bridging depth), the copy-across-registers rounds carry
`A` into that pin's fanin set and the pair receives nonzero weight. -/
theorem copyFanins_bridges_registers (g : FaninGraph) (depth n s t A B : Nat)
    (inputPinOf : Nat → Option Nat) (vs : List Nat)
    (hsr : SeqReach g n s t) (hdepth : n ≤ depth) (hA : A ∈ g.seed s)
    (hpin : inputPinOf t = some B) (hAB : A ≠ B) (ht : t ∈ vs) :
    1 ≤ weight (findAdjWeights inputPinOf (findAdjacencies g depth) vs) A B := by
  rw [findAdjWeights_count inputPinOf (findAdjacencies g depth) vs A B hAB]
  have hfan : A ∈ findAdjacencies g depth t :=
    seqReach_fanin g hsr depth hdepth hA
  have hconn : pinConnects inputPinOf (findAdjacencies g depth) A B t :=
    Or.inl ⟨hpin, hfan⟩
  have hpos : 0 < vs.countP
      fun v => decide (pinConnects inputPinOf (findAdjacencies g depth) A B v) := by
    rw [List.countP_pos_iff]
    exact ⟨t, ht, decide_eq_true hconn⟩
  omega

/-- Concrete pipeline used by the C3 witness: vertex 0 is macro 10's output
pin, vertex 1 a register data input, vertex 2 that register's output, vertex
3 an input pin of macro 20. -/
def regBridgeGraph : FaninGraph where
  numVertices := 4
  preds := fun v => if v = 1 then [0] else if v = 3 then [2] else []
  seed := fun v => if v = 0 then ({10} : Finset Nat) else ∅
  regPairs := [(1, 2)]

/-- Input-pin map used by the C3 witness. -/
def regBridgePin : Nat → Option Nat := fun v => if v = 3 then some 20 else none

/-- Witness for C3 at a concrete one-register pipeline. -/
theorem copyFanins_bridges_registers_witness :
    1 ≤ weight (findAdjWeights regBridgePin (findAdjacencies regBridgeGraph 1) [3]) 10 20 :=
  copyFanins_bridges_registers regBridgeGraph 1 1 0 3 10 20 regBridgePin [3]
    (SeqReach.reg
      (SeqReach.comb
        (Reaches.step (Reaches.refl 0) (show 0 ∈ regBridgeGraph.preds 1 by decide))
        (show 1 ≤ regBridgeGraph.numVertices by decide))
      (show (1, 2) ∈ regBridgeGraph.regPairs by decide)
      (Reaches.step (Reaches.refl 2) (show 2 ∈ regBridgeGraph.preds 3 by decide))
      (show 1 ≤ regBridgeGraph.numVertices by decide))
    (by decide) (by decide) (by decide) (by decide) (by decide)

/-- Modelled from the spec: `findNearestEdge` (declared in the header, body
not in the available source) classifies a boundary terminal at `(x, y)` to the
nearest of the four core-rectangle edges, scanning the distances in the
declaration order West, East, North, South and keeping the first minimum —
horizontal distances are compared before vertical ones, so ties resolve
toward West/East. -/
def findNearestEdge (coreLx coreLy coreUx coreUy x y : ℚ) : CoreEdge :=
  let distWest := |x - coreLx|
  let distEast := |coreUx - x|
  let distNorth := |coreUy - y|
  let distSouth := |y - coreLy|
  if distWest ≤ distEast ∧ distWest ≤ distNorth ∧ distWest ≤ distSouth then
    CoreEdge.West
  else if distEast ≤ distNorth ∧ distEast ≤ distSouth then
    CoreEdge.East
  else if distNorth ≤ distSouth then
    CoreEdge.North
  else
    CoreEdge.South

/-- C6: boundary-edge tie-break — a terminal whose West and East distances are
equal and both smaller than its North and South distances is classified to
West. -/
theorem findNearestEdge_tie_west (coreLx coreLy coreUx coreUy x y : ℚ)
    (hWE : |x - coreLx| = |coreUx - x|)
    (hWN : |x - coreLx| < |coreUy - y|)
    (hWS : |x - coreLx| < |y - coreLy|) :
    findNearestEdge coreLx coreLy coreUx coreUy x y = CoreEdge.West := by
  unfold findNearestEdge
  rw [if_pos ⟨le_of_eq hWE, le_of_lt hWN, le_of_lt hWS⟩]

/-- Witness for C6: a port at the horizontal center of a 10-wide, 20-tall
core, vertically centered, is equidistant from West and East (5 < 10 to
North/South) and resolves to West. -/
theorem findNearestEdge_tie_west_witness :
    findNearestEdge 0 0 10 20 5 10 = CoreEdge.West :=
  findNearestEdge_tie_west 0 0 10 20 5 10 (by norm_num) (by norm_num) (by norm_num)

/-- Class `Macro`: geometric/ownership record per macro, fields as declared in
the header (`lx, ly, w, h, haloX, haloY, channelX, channelY, dbInstPtr`); the
instance pointer is modelled as a natural-number identity. -/
structure Macro where
  lx : ℚ
  ly : ℚ
  w : ℚ
  h : ℚ
  haloX : ℚ
  haloY : ℚ
  channelX : ℚ
  channelY : ℚ
  dbInstPtr : Nat

/-- Class `Layout`: axis-aligned rectangle with private corners
`lx_, ly_, ux_, uy_` and inline accessors. -/
structure Layout where
  lx_ : ℚ
  ly_ : ℚ
  ux_ : ℚ
  uy_ : ℚ

/-- Header inline: `double lx() const { return lx_; }` -/
def Layout.lx (l : Layout) : ℚ := l.lx_

/-- Header inline: `double ly() const { return ly_; }` -/
def Layout.ly (l : Layout) : ℚ := l.ly_

/-- Header inline: `double ux() const { return ux_; }` -/
def Layout.ux (l : Layout) : ℚ := l.ux_

/-- Header inline: `double uy() const { return uy_; }` -/
def Layout.uy (l : Layout) : ℚ := l.uy_

/-- Modelled from the spec: the default constructor `Layout()` (body not in
the available source) zero-initializes the rectangle. -/
def Layout.mkDefault : Layout := ⟨0, 0, 0, 0⟩

/-- Modelled from the spec: `Layout(double lx, double ly, double ux, double
uy)` (body not in the available source) stores the four corners. -/
def Layout.mkRect (lx ly ux uy : ℚ) : Layout := ⟨lx, ly, ux, uy⟩

/-- Modelled from the spec: `setLx` (body not in the available source) stores
the new lower-left x. -/
def Layout.setLx (l : Layout) (lx : ℚ) : Layout := { l with lx_ := lx }

/-- Modelled from the spec: `setLy` stores the new lower-left y. -/
def Layout.setLy (l : Layout) (ly : ℚ) : Layout := { l with ly_ := ly }

/-- Modelled from the spec: `setUx` stores the new upper-right x. -/
def Layout.setUx (l : Layout) (ux : ℚ) : Layout := { l with ux_ := ux }

/-- Modelled from the spec: `setUy` stores the new upper-right y. -/
def Layout.setUy (l : Layout) (uy : ℚ) : Layout := { l with uy_ := uy }

/-- The spec's Layout invariant: `lx ≤ ux` and `ly ≤ uy`. -/
def Layout.invariant (l : Layout) : Prop := l.lx_ ≤ l.ux_ ∧ l.ly_ ≤ l.uy_

/-- Modelled from the spec: a `Partition` is a region (a `Layout`) together
with the macros assigned to it, refined into zero or two children once
split. -/
inductive Partition where
  | leaf (region : Layout) (ms : List Macro)
  | node (region : Layout) (left right : Partition)

/-- The region of a partition. -/
def Partition.region : Partition → Layout
  | Partition.leaf r _ => r
  | Partition.node r _ _ => r

/-- Modelled from the spec: the split-derived constructor
`Layout(Layout& orig, Partition& part)` (body not in the available source)
adopts the split partition's region. -/
def Layout.fromPartition (orig : Layout) (part : Partition) : Layout :=
  part.region

/-- Width of a macro inflated by its halo on each side. -/
def inflatedW (m : Macro) : ℚ := m.w + 2 * m.haloX

/-- Height of a macro inflated by its halo on each side. -/
def inflatedH (m : Macro) : ℚ := m.h + 2 * m.haloY

/-- The spec's Macro geometry invariant: extents and halos are nonnegative. -/
def geomValid (m : Macro) : Prop :=
  0 ≤ m.w ∧ 0 ≤ m.h ∧ 0 ≤ m.haloX ∧ 0 ≤ m.haloY

/-- Shelf-packer cursor: offsets within the current layout, current row
height, and the macros placed so far. -/
structure PackState where
  cx : ℚ
  cy : ℚ
  rowH : ℚ
  placed : List Macro

/-- Modelled from the spec: one step of the Coordinate Updater's shelf packer
("a simple shelf- or bin-style packer honoring halo/channel insets") — place
the macro at the cursor in the current row when its halo-inflated box fits,
else open a new row; fail when neither fits. -/
def placeInShelf (L : Layout) (st : PackState) (m : Macro) : Option PackState :=
  if L.lx_ + st.cx + inflatedW m ≤ L.ux_ ∧ L.ly_ + st.cy + inflatedH m ≤ L.uy_ then
    some ⟨st.cx + inflatedW m, st.cy, max st.rowH (inflatedH m),
      st.placed ++ [{ m with lx := L.lx_ + st.cx + m.haloX, ly := L.ly_ + st.cy + m.haloY }]⟩
  else if L.lx_ + inflatedW m ≤ L.ux_ ∧
      L.ly_ + st.cy + st.rowH + inflatedH m ≤ L.uy_ then
    some ⟨inflatedW m, st.cy + st.rowH, inflatedH m,
      st.placed ++ [{ m with lx := L.lx_ + m.haloX, ly := L.ly_ + st.cy + st.rowH + m.haloY }]⟩
  else
    none

/-- Fold of the shelf packer over a macro list. -/
def packList (L : Layout) (st : PackState) : List Macro → Option PackState
  | [] => some st
  | m :: ms =>
    match placeInShelf L st m with
    | some st2 => packList L st2 ms
    | none => none

/-- Modelled from the spec: `UpdateMacroCoordi` at a leaf — pack the leaf's
macros into its region and return them with final coordinates. -/
def packMacros (L : Layout) (ms : List Macro) : Option (List Macro) :=
  (packList L ⟨0, 0, 0, []⟩ ms).map PackState.placed

/-- The macro's halo-inflated rectangle lies inside layout `L`. -/
def inflatedInside (m : Macro) (L : Layout) : Prop :=
  L.lx_ ≤ m.lx - m.haloX ∧ m.lx + m.w + m.haloX ≤ L.ux_ ∧
  L.ly_ ≤ m.ly - m.haloY ∧ m.ly + m.h + m.haloY ≤ L.uy_

/-- Rectangle `inner` lies inside `outer`. -/
def subRect (inner outer : Layout) : Prop :=
  outer.lx_ ≤ inner.lx_ ∧ inner.ux_ ≤ outer.ux_ ∧
  outer.ly_ ≤ inner.ly_ ∧ inner.uy_ ≤ outer.uy_

/-- Packer invariant: nonnegative cursor and all placed macros contained. -/
def packInv (L : Layout) (st : PackState) : Prop :=
  0 ≤ st.cx ∧ 0 ≤ st.cy ∧ 0 ≤ st.rowH ∧ ∀ m ∈ st.placed, inflatedInside m L

theorem placeInShelf_inv (L : Layout) (st : PackState) (m : Macro)
    (hinv : packInv L st) (hm : geomValid m) {st2 : PackState}
    (hstep : placeInShelf L st m = some st2) : packInv L st2 := by
  obtain ⟨hcx, hcy, hrowH, hplaced⟩ := hinv
  obtain ⟨hw, hh, hhx, hhy⟩ := hm
  unfold placeInShelf inflatedW inflatedH at hstep
  split_ifs at hstep with h1 h2
  · obtain ⟨hx1, hy1⟩ := h1
    cases hstep
    refine ⟨?_, ?_, ?_, ?_⟩
    · dsimp only
      linarith
    · dsimp only
      linarith
    · dsimp only
      exact le_trans hrowH (le_max_left _ _)
    · dsimp only
      intro p hp
      rcases List.mem_append.mp hp with hp | hp
      · exact hplaced p hp
      · rcases List.mem_singleton.mp hp with rfl
        unfold inflatedInside
        refine ⟨?_, ?_, ?_, ?_⟩ <;> dsimp only <;> linarith
  · obtain ⟨hx1, hy1⟩ := h2
    cases hstep
    refine ⟨?_, ?_, ?_, ?_⟩
    · dsimp only
      linarith
    · dsimp only
      linarith
    · dsimp only
      linarith
    · dsimp only
      intro p hp
      rcases List.mem_append.mp hp with hp | hp
      · exact hplaced p hp
      · rcases List.mem_singleton.mp hp with rfl
        unfold inflatedInside
        refine ⟨?_, ?_, ?_, ?_⟩ <;> dsimp only <;> linarith

theorem packList_inv (L : Layout) (ms : List Macro) :
    ∀ st : PackState, packInv L st → (∀ m ∈ ms, geomValid m) →
      ∀ st2 : PackState, packList L st ms = some st2 → packInv L st2 := by
  induction ms with
  | nil =>
    intro st hinv _ st2 hpack
    unfold packList at hpack
    cases hpack
    exact hinv
  | cons m ms ih =>
    intro st hinv hgeom st2 hpack
    unfold packList at hpack
    cases hstep : placeInShelf L st m with
    | none => rw [hstep] at hpack; cases hpack
    | some st1 =>
      rw [hstep] at hpack
      exact ih st1
        (placeInShelf_inv L st m hinv (hgeom m (List.mem_cons_self m ms)) hstep)
        (fun p hp => hgeom p (List.mem_cons_of_mem m hp)) st2 hpack

theorem packMacros_inside (L : Layout) (ms : List Macro)
    (hgeom : ∀ m ∈ ms, geomValid m) {placed : List Macro}
    (hpack : packMacros L ms = some placed) :
    ∀ m ∈ placed, inflatedInside m L := by
  unfold packMacros at hpack
  cases hlist : packList L ⟨0, 0, 0, []⟩ ms with
  | none => rw [hlist] at hpack; cases hpack
  | some st2 =>
    rw [hlist] at hpack
    cases hpack
    have hinv : packInv L (⟨0, 0, 0, []⟩ : PackState) :=
      ⟨le_refl 0, le_refl 0, le_refl 0, by intro m hm; cases hm⟩
    exact (packList_inv L ms _ hinv hgeom st2 hlist).2.2.2

theorem inflatedInside_mono {m : Macro} {L F : Layout}
    (hin : inflatedInside m L) (hsub : subRect L F) : inflatedInside m F := by
  obtain ⟨h1, h2, h3, h4⟩ := hin
  obtain ⟨s1, s2, s3, s4⟩ := hsub
  exact ⟨le_trans s1 h1, le_trans h2 s2, le_trans s3 h3, le_trans h4 s4⟩

theorem subRect_trans {A B C : Layout} (h1 : subRect A B) (h2 : subRect B C) :
    subRect A C := by
  obtain ⟨a1, a2, a3, a4⟩ := h1
  obtain ⟨b1, b2, b3, b4⟩ := h2
  exact ⟨le_trans b1 a1, le_trans a2 b2, le_trans b3 a3, le_trans a4 b4⟩

/-- Well-formed partition tree: each child's region lies inside its parent's. -/
def Partition.wf : Partition → Prop
  | Partition.leaf _ _ => True
  | Partition.node r l rt =>
      subRect l.region r ∧ subRect rt.region r ∧ l.wf ∧ rt.wf

/-- All macros owned by a partition tree. -/
def Partition.allMacros : Partition → List Macro
  | Partition.leaf _ ms => ms
  | Partition.node _ l rt => l.allMacros ++ rt.allMacros

/-- Modelled from the spec: `UpdateMacroCoordi` walks the final partition
tree and packs each leaf's macros inside that leaf's region. -/
def UpdateMacroCoordi : Partition → Option (List Macro)
  | Partition.leaf r ms => packMacros r ms
  | Partition.node _ l rt =>
    match UpdateMacroCoordi l, UpdateMacroCoordi rt with
    | some a, some b => some (a ++ b)
    | _, _ => none

/-- C7: fence containment — when the Coordinate Updater succeeds on a
well-formed partition tree whose root region lies inside the fence, every
placed macro's halo-inflated rectangle lies inside the fence rectangle. -/
theorem updateMacroCoordi_fence_containment (t : Partition) (fence : Layout)
    (hwf : t.wf) (hsub : subRect t.region fence)
    (hgeom : ∀ m ∈ t.allMacros, geomValid m) (placed : List Macro)
    (hupd : UpdateMacroCoordi t = some placed) :
    ∀ m ∈ placed, inflatedInside m fence := by
  induction t generalizing placed fence with
  | leaf r ms =>
    intro m hm
    have hin : inflatedInside m r :=
      packMacros_inside r ms hgeom hupd m hm
    exact inflatedInside_mono hin hsub
  | node r l rt ihl ihr =>
    obtain ⟨hsl, hsr, hwl, hwr⟩ := hwf
    unfold UpdateMacroCoordi at hupd
    cases hl : UpdateMacroCoordi l with
    | none => rw [hl] at hupd; cases hupd
    | some a =>
      cases hr : UpdateMacroCoordi rt with
      | none => rw [hl, hr] at hupd; cases hupd
      | some b =>
        rw [hl, hr] at hupd
        cases hupd
        intro m hm
        have hgl : ∀ p ∈ l.allMacros, geomValid p := fun p hp =>
          hgeom p (by unfold Partition.allMacros; exact List.mem_append_left _ hp)
        have hgr : ∀ p ∈ rt.allMacros, geomValid p := fun p hp =>
          hgeom p (by unfold Partition.allMacros; exact List.mem_append_right _ hp)
        rcases List.mem_append.mp hm with hm | hm
        · exact ihl fence hwl (subRect_trans hsl hsub) hgl a hl m hm
        · exact ihr fence hwr (subRect_trans hsr hsub) hgr b hr m hm

/-- Witness for C7: one 10×10 halo-free macro packed into a 100×100 fence
stays inside it. -/
theorem updateMacroCoordi_fence_containment_witness :
    inflatedInside (⟨0, 0, 10, 10, 0, 0, 0, 0, 0⟩ : Macro)
      (Layout.mkRect 0 0 100 100) :=
  updateMacroCoordi_fence_containment
    (Partition.leaf (Layout.mkRect 0 0 100 100) [⟨0, 0, 10, 10, 0, 0, 0, 0, 0⟩])
    (Layout.mkRect 0 0 100 100)
    trivial
    ⟨le_refl _, le_refl _, le_refl _, le_refl _⟩
    (by
      intro m hm
      rcases List.mem_singleton.mp hm with rfl
      exact ⟨by norm_num, by norm_num, by norm_num, by norm_num⟩)
    [⟨0, 0, 10, 10, 0, 0, 0, 0, 0⟩]
    (by norm_num [UpdateMacroCoordi, packMacros, packList, placeInShelf,
      inflatedW, inflatedH, Layout.mkRect])
    (⟨0, 0, 10, 10, 0, 0, 0, 0, 0⟩ : Macro)
    (List.mem_singleton.mpr rfl)

/-- Counterexample to unconditional invariant preservation: a setter is a
plain store, so writing a lower-left x beyond the current upper-right x
breaks `lx ≤ ux`. -/
theorem layout_setLx_can_break_invariant :
    ¬ Layout.invariant ((Layout.mkRect 0 0 5 5).setLx 10) := by
  norm_num [Layout.invariant, Layout.setLx, Layout.mkRect]

/-- C8: Layout rectangle invariant — `lx ≤ ux ∧ ly ≤ uy` holds for the
default constructor, for the four-corner constructor on ordered corners, for
the split-derived constructor when the partition's region satisfies it, and
is preserved by each setter when the incoming coordinate respects the
opposite bound. -/
theorem layout_invariant_all_ops :
    Layout.invariant Layout.mkDefault ∧
    (∀ lx ly ux uy : ℚ, lx ≤ ux → ly ≤ uy →
      Layout.invariant (Layout.mkRect lx ly ux uy)) ∧
    (∀ (orig : Layout) (part : Partition), Layout.invariant part.region →
      Layout.invariant (Layout.fromPartition orig part)) ∧
    (∀ (l : Layout) (v : ℚ), Layout.invariant l → v ≤ l.ux_ →
      Layout.invariant (l.setLx v)) ∧
    (∀ (l : Layout) (v : ℚ), Layout.invariant l → v ≤ l.uy_ →
      Layout.invariant (l.setLy v)) ∧
    (∀ (l : Layout) (v : ℚ), Layout.invariant l → l.lx_ ≤ v →
      Layout.invariant (l.setUx v)) ∧
    (∀ (l : Layout) (v : ℚ), Layout.invariant l → l.ly_ ≤ v →
      Layout.invariant (l.setUy v)) := by
  refine ⟨⟨le_refl 0, le_refl 0⟩, ?_, ?_, ?_, ?_, ?_, ?_⟩
  · intro lx ly ux uy h1 h2
    exact ⟨h1, h2⟩
  · intro orig part h
    exact h
  · intro l v h hv
    exact ⟨hv, h.2⟩
  · intro l v h hv
    exact ⟨h.1, hv⟩
  · intro l v h hv
    exact ⟨hv, h.2⟩
  · intro l v h hv
    exact ⟨h.1, hv⟩

/-- Witness for C8: the invariant-preserving operations applied at concrete
rectangles. -/
theorem layout_invariant_all_ops_witness :
    Layout.invariant (Layout.mkRect 0 0 5 5) ∧
    Layout.invariant (Layout.fromPartition Layout.mkDefault
      (Partition.leaf (Layout.mkRect 1 1 2 3) [])) ∧
    Layout.invariant ((Layout.mkRect 0 0 5 5).setLx 3) ∧
    Layout.invariant ((Layout.mkRect 0 0 5 5).setLy 4) ∧
    Layout.invariant ((Layout.mkRect 0 0 5 5).setUx 2) ∧
    Layout.invariant ((Layout.mkRect 0 0 5 5).setUy 1) :=
  ⟨layout_invariant_all_ops.2.1 0 0 5 5 (by norm_num [Layout.mkRect]) (by norm_num [Layout.mkRect]),
   layout_invariant_all_ops.2.2.1 Layout.mkDefault
     (Partition.leaf (Layout.mkRect 1 1 2 3) [])
     ⟨by norm_num [Partition.region, Layout.mkRect],
      by norm_num [Partition.region, Layout.mkRect]⟩,
   layout_invariant_all_ops.2.2.2.1 (Layout.mkRect 0 0 5 5) 3
     ⟨by norm_num [Layout.mkRect], by norm_num [Layout.mkRect]⟩ (by norm_num [Layout.mkRect]),
   layout_invariant_all_ops.2.2.2.2.1 (Layout.mkRect 0 0 5 5) 4
     ⟨by norm_num [Layout.mkRect], by norm_num [Layout.mkRect]⟩ (by norm_num [Layout.mkRect]),
   layout_invariant_all_ops.2.2.2.2.2.1 (Layout.mkRect 0 0 5 5) 2
     ⟨by norm_num [Layout.mkRect], by norm_num [Layout.mkRect]⟩ (by norm_num [Layout.mkRect]),
   layout_invariant_all_ops.2.2.2.2.2.2 (Layout.mkRect 0 0 5 5) 1
     ⟨by norm_num [Layout.mkRect], by norm_num [Layout.mkRect]⟩ (by norm_num [Layout.mkRect])⟩

/-- The fatal error kinds of the error-handling design. -/
inductive PlaceError where
  | MissingTimingData
  | InfeasibleArea
  deriving DecidableEq, Repr

/-- Modelled from the spec: the read-only snapshot a placement invocation
consumes — the liberty-availability flag, the macro collection, the
connectivity graph with its macro-input-pin map and vertex list, the register
bridging depth, and the fence region (the full core area when no fence is
set). -/
structure PlaceInput where
  missingLiberty : Bool
  macroStor : List Macro
  graph : FaninGraph
  inputPinOf : Nat → Option Nat
  vertices : List Nat
  regDepth : Nat
  fence : Layout

/-- Modelled from the spec: `isMissingLiberty` (declared in the header, body
not in the available source) reports whether the graph lacks the cell-level
liberty timing information needed to distinguish sequential boundaries; the
snapshot carries the answer as a flag. -/
def isMissingLiberty (inp : PlaceInput) : Bool := inp.missingLiberty

/-- Total macro area inflated by halos. -/
def totalInflatedArea (ms : List Macro) : ℚ :=
  (ms.map fun m => inflatedW m * inflatedH m).sum

/-- Area of a layout rectangle. -/
def layoutArea (L : Layout) : ℚ := (L.ux_ - L.lx_) * (L.uy_ - L.ly_)

/-- Modelled from the spec: `UpdateOpendbCoordi` (declared in the header, body
not in the available source) — the single write-back pass pushing final
coordinates into the database by instance identity. -/
def UpdateOpendbCoordi (placed : List Macro) (db : Nat → ℚ × ℚ) : Nat → ℚ × ℚ :=
  fun i =>
    match placed.find? fun m => m.dbInstPtr == i with
    | some m => (m.lx, m.ly)
    | none => db i

/-- Half-perimeter distance between two points. -/
def hpwlDist (a b : ℚ × ℚ) : ℚ := |a.1 - b.1| + |a.2 - b.2|

/-- Center of a macro's rectangle. -/
def macroCenter (m : Macro) : ℚ × ℚ := (m.lx + m.w / 2, m.ly + m.h / 2)

/-- Placeholder macro used as the out-of-range default of list indexing. -/
def nullM : Macro := ⟨0, 0, 0, 0, 0, 0, 0, 0, 0⟩

/-- Modelled from the spec: `GetWeightedWL` — the weighted wirelength of a
placement, summing connection weight times half-perimeter center distance
over all macro index pairs. -/
def GetWeightedWL (adj_map : Nat × Nat → Nat) (placed : List Macro) : ℚ :=
  Finset.sum (Finset.range placed.length) fun i =>
    Finset.sum (Finset.range placed.length) fun j =>
      if i < j then
        (weight adj_map i j : ℚ) *
          hpwlDist (macroCenter (placed.getD i nullM)) (macroCenter (placed.getD j nullM))
      else 0

/-- Modelled from the spec: the `placeMacros` orchestration — abandon with
MissingTimingData before any analysis when liberty data is absent; otherwise
run the Fanin Propagator and Adjacency Weight Builder; abandon with
InfeasibleArea when the halo-inflated macro area exceeds the fence area or
when no legal packing exists; only on a complete solution write coordinates
back and report its weighted wirelength.  Partition refinement is modelled as
the single-leaf partition of the fence, which the claims checked here do not
depend on. -/
def placeMacros (inp : PlaceInput) (db : Nat → ℚ × ℚ) :
    (Nat → ℚ × ℚ) × Except PlaceError ℚ :=
  if isMissingLiberty inp then
    (db, Except.error PlaceError.MissingTimingData)
  else
    let vertex_fanins := findAdjacencies inp.graph inp.regDepth
    let adj_map := findAdjWeights inp.inputPinOf vertex_fanins inp.vertices
    if layoutArea inp.fence < totalInflatedArea inp.macroStor then
      (db, Except.error PlaceError.InfeasibleArea)
    else
      match UpdateMacroCoordi (Partition.leaf inp.fence inp.macroStor) with
      | none => (db, Except.error PlaceError.InfeasibleArea)
      | some placed => (UpdateOpendbCoordi placed db, Except.ok (GetWeightedWL adj_map placed))

/-- C4: MissingTimingData is fatal — when the graph lacks liberty timing
information, `placeMacros` reports the configuration error and the database
is returned untouched: no weight computation or coordinate write happens. -/
theorem placeMacros_missing_timing_fatal (inp : PlaceInput) (db : Nat → ℚ × ℚ)
    (h : isMissingLiberty inp = true) :
    placeMacros inp db = (db, Except.error PlaceError.MissingTimingData) := by
  unfold placeMacros
  rw [if_pos h]

/-- Concrete snapshot without liberty data, used by the C4 witness. -/
def missingLibertyInput : PlaceInput where
  missingLiberty := true
  macroStor := []
  graph := ⟨0, fun _ => [], fun _ => ∅, []⟩
  inputPinOf := fun _ => none
  vertices := []
  regDepth := 0
  fence := Layout.mkDefault

/-- Witness for C4 at a concrete input. -/
theorem placeMacros_missing_timing_fatal_witness :
    placeMacros missingLibertyInput (fun _ => (0, 0)) =
      ((fun _ => (0, 0)), Except.error PlaceError.MissingTimingData) :=
  placeMacros_missing_timing_fatal missingLibertyInput (fun _ => (0, 0)) rfl

/-- C5: atomicity on fatal abort — whenever `placeMacros` ends in an error
(MissingTimingData or InfeasibleArea), the returned database equals the input
database: zero coordinates are written back. -/
theorem placeMacros_abort_writes_nothing (inp : PlaceInput) (db : Nat → ℚ × ℚ)
    (e : PlaceError) (h : (placeMacros inp db).2 = Except.error e) :
    (placeMacros inp db).1 = db := by
  unfold placeMacros at h ⊢
  cases hml : isMissingLiberty inp with
  | true => simp [hml]
  | false =>
    simp only [hml, Bool.false_eq_true, if_false] at h ⊢
    by_cases ha : layoutArea inp.fence < totalInflatedArea inp.macroStor
    · simp [ha]
    · simp only [ha, if_false] at h ⊢
      cases hU : UpdateMacroCoordi (Partition.leaf inp.fence inp.macroStor) with
      | none => simp [hU]
      | some placed =>
        rw [hU] at h
        exact absurd h (by simp)

/-- Concrete infeasible snapshot (2×2 macro, 1×1 fence) for the C5 witness. -/
def infeasibleInput : PlaceInput where
  missingLiberty := false
  macroStor := [⟨0, 0, 2, 2, 0, 0, 0, 0, 0⟩]
  graph := ⟨0, fun _ => [], fun _ => ∅, []⟩
  inputPinOf := fun _ => none
  vertices := []
  regDepth := 0
  fence := Layout.mkRect 0 0 1 1

/-- Witness for C5 at a concrete infeasible input. -/
theorem placeMacros_abort_writes_nothing_witness :
    (placeMacros infeasibleInput (fun _ => (0, 0))).1 = fun _ => (0, 0) :=
  placeMacros_abort_writes_nothing infeasibleInput (fun _ => (0, 0))
    PlaceError.InfeasibleArea
    (by norm_num [placeMacros, isMissingLiberty, infeasibleInput, layoutArea,
      totalInflatedArea, inflatedW, inflatedH, Layout.mkRect])

/-- C10: core-edge index round-trip — `coreEdgeIndex` is a two-sided inverse
of `coreEdgeFromIndex` on indices `0..3`, and `coreEdgeIndex` always lands in
`[0, core_edge_count)`. -/
theorem coreEdge_index_roundtrip :
    (∀ i : Nat, i < core_edge_count → coreEdgeIndex (coreEdgeFromIndex i) = i) ∧
    (∀ e : CoreEdge, coreEdgeFromIndex (coreEdgeIndex e) = e) ∧
    (∀ e : CoreEdge, coreEdgeIndex e < core_edge_count) := by
  refine ⟨?_, ?_, ?_⟩
  · intro i hi
    unfold core_edge_count at hi
    interval_cases i <;> rfl
  · intro e; cases e <;> rfl
  · intro e; cases e <;> decide

/-- Witness for C10 at concrete inputs. -/
theorem coreEdge_index_roundtrip_witness :
    coreEdgeIndex (coreEdgeFromIndex 2) = 2 :=
  coreEdge_index_roundtrip.1 2 (by decide)

/-- C9: `MacroLocalInfo` accessor round-trip and frame — each `put` makes the
matching `Get` return exactly the stored value and leaves the other three
fields unchanged. -/
theorem macroLocalInfo_put_get_frame (s : MacroLocalInfo) (v : ℚ) :
    ((s.putHaloX v).GetHaloX = v ∧ (s.putHaloX v).GetHaloY = s.GetHaloY ∧
      (s.putHaloX v).GetChannelX = s.GetChannelX ∧
      (s.putHaloX v).GetChannelY = s.GetChannelY) ∧
    ((s.putHaloY v).GetHaloY = v ∧ (s.putHaloY v).GetHaloX = s.GetHaloX ∧
      (s.putHaloY v).GetChannelX = s.GetChannelX ∧
      (s.putHaloY v).GetChannelY = s.GetChannelY) ∧
    ((s.putChannelX v).GetChannelX = v ∧ (s.putChannelX v).GetHaloX = s.GetHaloX ∧
      (s.putChannelX v).GetHaloY = s.GetHaloY ∧
      (s.putChannelX v).GetChannelY = s.GetChannelY) ∧
    ((s.putChannelY v).GetChannelY = v ∧ (s.putChannelY v).GetHaloX = s.GetHaloX ∧
      (s.putChannelY v).GetHaloY = s.GetHaloY ∧
      (s.putChannelY v).GetChannelX = s.GetChannelX) := by
  refine ⟨⟨rfl, rfl, rfl, rfl⟩, ⟨rfl, rfl, rfl, rfl⟩,
    ⟨rfl, rfl, rfl, rfl⟩, ⟨rfl, rfl, rfl, rfl⟩⟩

end Mpl
